import Mathlib

/-!
Verification of the batched beam-search generation core of
`magenta/models/shared/events_rnn_model.py` (class `EventSequenceRnnModel`).

The Python code is shallowly embedded below.  The external collaborators that
the spec declares out of scope (the TensorFlow step function run by
`_generate_step_for_batch`, and the encoder/decoder that extends event
sequences in place and reports the chosen softmax value) are modelled as an
abstract environment `RnnEnv`:

* `stepForBatch seqs inputs states temp` returns the extended event
  sequences, the batch of final RNN state rows, and the chosen softmax
  value per sequence.  In the source this is `_generate_step_for_batch`,
  whose in-place mutation of `event_sequences` is made explicit by
  returning the extended sequences.
* `log` is the score function `np.log` applied to a chosen softmax value.
  It is kept abstract so that the combinatorial parts of the algorithm stay
  executable; the intended instance is `Real.log` on real-valued scores,
  which is what the claims about log-likelihood arithmetic use.
* `getInputsBatch` is `encoder_decoder.get_inputs_batch` (the `Bool` is the
  `full_length` keyword); `initStateRow` is the row obtained from
  `session.run(graph_initial_state)`.

Numeric values (log-likelihoods, softmax values) are idealised as elements
of a linearly ordered additive group (`ℝ` in the intended instance), the
same idealisation the spec itself uses for `LogLikelihood`.

Python `int` arithmetic appearing in the source (`len(...) / batch_size`,
`(num_steps - 1) % steps_per_iteration + 1`) is Python 2 arithmetic on
nonnegative operands and is embedded as `Nat` division / modulus, which
coincides with it on the domain reached from the validated entry point
(`num_steps ≥ 1`, `batch_size ≥ 1`).
-/

namespace EventsRnn

/-- Errors surfaced by the embedded code.  `emptyPrimerError` and
`primerTooLongError` are the two `EventSequenceRnnModelException`s raised by
`_generate_events` (distinguished in the source only by their message).
`pyTypeError` is the Python `TypeError` raised in the partial-batch padding
branch of `_generate_step` (see `generateStep`).  `pyZeroDivisionError` is
the Python `ZeroDivisionError` raised by `len(event_sequences) / batch_size`
when `batch_size == 0`.  `pyIndexError` is the `IndexError` that
`event_sequences[0]` would raise on an empty list at the end of
`_beam_search`. -/
inductive GenError where
  | emptyPrimerError
  | primerTooLongError
  | pyTypeError
  | pyZeroDivisionError
  | pyIndexError
deriving DecidableEq

/-- The abstract collaborators of the beam-search core: the batched step
function (`_generate_step_for_batch`), the score function `np.log`, the
encoder/decoder's `get_inputs_batch`, and the model's initial state row. -/
structure RnnEnv (ε ι σ α τ : Type) where
  stepForBatch : List (List ε) → List ι → List σ → τ → List (List ε) × List σ × List α
  log : α → α
  getInputsBatch : List (List ε) → Bool → List ι
  initStateRow : σ

variable {ε ι σ α τ : Type}

/-- Python list repetition `xs * n` (also `np.tile(a, (n, 1))` on a matrix of
rows and `np.tile(v, (n,))` on a vector): `n` concatenated copies of the
list. -/
def pyRepeat (xs : List β) (n : ℕ) : List β :=
  (List.replicate n xs).flatten

/-- `np.zeros(beam_size)`: the initial log-likelihood vector of
`_beam_search` (line 274 of the source). -/
def initialLogLik (α : Type) [Zero α] (beam_size : ℕ) : List α :=
  List.replicate beam_size 0

/-- `all_loglik += np.log(all_softmax)` (line 199 of the source): elementwise
addition of the logs of the chosen softmax values. -/
def accumulateLogLik [Add α] (log : α → α) (loglik softmax : List α) : List α :=
  List.zipWith (fun l p => l + log p) loglik softmax

/-- The full-batch loop of `_generate_step` (lines 129-140): process `n`
consecutive chunks of `bs` candidates, invoking the batched step function on
each chunk, and stitch the per-chunk results back together in order.  The
results are concatenated in chunk order, which reproduces the source's
writes `final_state[batch_indices, :] = batch_final_state` and
`softmax[batch_indices] = batch_softmax` at the same global indices. -/
def stepChunks (bs : ℕ) (env : RnnEnv ε ι σ α τ) (t : τ) :
    ℕ → List (List ε) → List ι → List σ → List (List ε) × List σ × List α
  | 0, _, _, _ => ([], [], [])
  | n + 1, seqs, inputs, states =>
      let b := env.stepForBatch (seqs.take bs) (inputs.take bs) (states.take bs) t
      let r := stepChunks bs env t n (seqs.drop bs) (inputs.drop bs) (states.drop bs)
      (b.1 ++ r.1, b.2.1 ++ r.2.1, b.2.2 ++ r.2.2)

/-- Number of completed invocations of the step function performed by
`_generate_step` on `n` candidates with batch size `bs`: one per full batch
(`num_full_batches = len(event_sequences) / batch_size`, line 124).  The
partial-batch padding branch never completes a step-function call: it raises
a `TypeError` while evaluating the call's arguments (see `generateStep`). -/
def generateStepNumCalls (n bs : ℕ) : ℕ :=
  n / bs

/-- `_generate_step` (lines 104-159).  Splits the candidate population into
`num_full_batches = len(event_sequences) / batch_size` full chunks and runs
the step function on each.  If a non-empty partial batch remains
(`offset < len(event_sequences)`, line 142), the source pads it: it deep
copies the last event sequence (line 150), builds the padded inputs as
`[inputs[i] for i in batch_indices] + inputs[-1] * pad_size` (line 151,
which concatenates the *elements* of the last input row rather than
repeating the row), and builds the padded state matrix as
`np.append(initial_state[batch_indices, :], np.tile(inputs[-1, :], (pad_size, 1)), axis=0)`
(lines 152-154).  `inputs` is a Python list (per the function's own
docstring, "A Python list of model inputs"), so the tuple index
`inputs[-1, :]` raises `TypeError: list indices must be integers` before the
step function is invoked on the padded chunk; the padding branch therefore
never returns and is embedded as `pyTypeError`.  With `batch_size == 0`,
`len(event_sequences) / batch_size` raises `ZeroDivisionError`. -/
def generateStep (bs : ℕ) (env : RnnEnv ε ι σ α τ) (event_sequences : List (List ε))
    (inputs : List ι) (initial_state : List σ) (t : τ) :
    Except GenError (List (List ε) × List σ × List α) :=
  if bs = 0 then .error .pyZeroDivisionError
  else if bs * (event_sequences.length / bs) < event_sequences.length then .error .pyTypeError
  else .ok (stepChunks bs env t (event_sequences.length / bs) event_sequences inputs
    initial_state)

/-- The step loop of `_generate_branches` (lines 196-199): `num_steps` times,
run `_generate_step` on the whole population (the model inputs are not
recomputed between steps within one branching pass), thread the final state
into the next step, and accumulate `np.log` of the chosen softmax values
into the log-likelihoods. -/
def branchSteps (bs : ℕ) [Add α] (env : RnnEnv ε ι σ α τ) (t : τ) :
    ℕ → List (List ε) → List ι → List σ → List α →
    Except GenError (List (List ε) × List σ × List α)
  | 0, es, _, fs, ll => .ok (es, fs, ll)
  | n + 1, es, inputs, fs, ll =>
      match generateStep bs env es inputs fs t with
      | .error e => .error e
      | .ok r => branchSteps bs env t n r.1 inputs r.2.1 (accumulateLogLik env.log ll r.2.2)

/-- `_generate_branches` (lines 161-201): replicate the event sequences
(`event_sequences * branch_factor`, with `copy.deepcopy` made implicit by
the pure embedding), the inputs (`inputs * branch_factor`), the states
(`np.tile(initial_state, (branch_factor, 1))`) and the log-likelihoods
(`np.tile(loglik, (branch_factor,))`), then take `num_steps` steps. -/
def generateBranches (bs : ℕ) [Add α] (env : RnnEnv ε ι σ α τ) (event_sequences : List (List ε))
    (loglik : List α) (branch_factor num_steps : ℕ) (inputs : List ι)
    (initial_state : List σ) (t : τ) :
    Except GenError (List (List ε) × List σ × List α) :=
  branchSteps bs env t num_steps (pyRepeat event_sequences branch_factor)
    (pyRepeat inputs branch_factor) (pyRepeat initial_state branch_factor)
    (pyRepeat loglik branch_factor)

/-- Stable descending insertion used to model `heapq.nlargest` over indices:
`i` is placed before the first element `j` whose key does not exceed `i`'s
key.  When `i` is smaller than every index already in the list (which is how
`sortIdxDesc` uses it), this realises the documented `heapq.nlargest`
semantics `sorted(iterable, key=key, reverse=True)` with its stable
tie-breaking (earlier iterable positions first). -/
def insertTopIdx [LinearOrder α] (key : ℕ → α) (i : ℕ) : List ℕ → List ℕ
  | [] => [i]
  | j :: js => if key j ≤ key i then i :: j :: js else j :: insertTopIdx key i js

/-- Stable descending sort of a list of indices by `key`. -/
def sortIdxDesc [LinearOrder α] (key : ℕ → α) : List ℕ → List ℕ
  | [] => []
  | i :: is => insertTopIdx key i (sortIdxDesc key is)

/-- `heapq.nlargest(k, range(m), key=key)` (line 224 of the source): the
first `k` indices of `range(m)` sorted by key in descending order, earlier
indices first among equal keys (CPython documents `nlargest` as equivalent
to `sorted(iterable, key=key, reverse=True)[:n]`). -/
def nlargest [LinearOrder α] (k m : ℕ) (key : ℕ → α) : List ℕ :=
  (sortIdxDesc key (List.range m)).take k

/-- The ordering realised by `nlargest` on indices: larger key first, and
among equal keys the smaller (earlier) index first. -/
def keyOrd [LinearOrder α] (key : ℕ → α) (i j : ℕ) : Prop :=
  key j < key i ∨ (key i = key j ∧ i ≤ j)

/-- `_prune_branches` (lines 203-231): keep the `k` event sequences with
highest log-likelihood, selecting indices with
`heapq.nlargest(k, range(len(event_sequences)), key=lambda i: loglik[i])`
and filtering all three parallel collections with the selected indices. -/
def pruneBranches [LinearOrder α] [Zero α] [Inhabited σ] (event_sequences : List (List ε))
    (final_state : List σ) (loglik : List α) (k : ℕ) :
    List (List ε) × List σ × List α :=
  let indices := nlargest k event_sequences.length (fun i => loglik.getD i 0)
  (indices.map (fun i => event_sequences.getD i []),
   indices.map (fun i => final_state.getD i default),
   indices.map (fun i => loglik.getD i 0))

/-- `first_iteration_num_steps = (num_steps - 1) % steps_per_iteration + 1`
(line 278 of the source). -/
def firstIterationNumSteps (num_steps steps_per_iteration : ℕ) : ℕ :=
  (num_steps - 1) % steps_per_iteration + 1

/-- `num_iterations = (num_steps - first_iteration_num_steps) / steps_per_iteration`
(lines 288-289 of the source). -/
def numIterations (num_steps steps_per_iteration : ℕ) : ℕ :=
  (num_steps - firstIterationNumSteps num_steps steps_per_iteration) / steps_per_iteration

/-- The iteration loop of `_beam_search` (lines 291-297): each round prunes
the population to `beam_size`, recomputes the model inputs from the extended
sequences (`full_length` defaulting to false), and branches for
`steps_per_iteration` further steps starting from the pruned final
states. -/
def searchIterations (bs : ℕ) [LinearOrder α] [Zero α] [Add α] [Inhabited σ]
    (env : RnnEnv ε ι σ α τ) (t : τ) (beam_size branch_factor steps_per_iteration : ℕ) :
    ℕ → List (List ε) → List σ → List α →
    Except GenError (List (List ε) × List σ × List α)
  | 0, es, fs, ll => .ok (es, fs, ll)
  | n + 1, es, fs, ll =>
      let p := pruneBranches es fs ll beam_size
      let inputs := env.getInputsBatch p.1 false
      match generateBranches bs env p.1 p.2.2 branch_factor steps_per_iteration inputs p.2.1 t with
      | .error e => .error e
      | .ok r => searchIterations bs env t beam_size branch_factor steps_per_iteration n r.1 r.2.1 r.2.2

/-- `_beam_search` (lines 233-306): fill the beam with `beam_size` copies of
the initial events with zero log-likelihood, prime with a branching pass of
`first_iteration_num_steps` steps over inputs computed with
`full_length=True`, run `num_iterations` prune/branch rounds, prune to a
single sequence and return element `0` of the pruned list (line 306;
`IndexError` if the list were empty).  The `tf.logging.info` call is a pure
side effect and is not modelled. -/
def beamSearch (bs : ℕ) [LinearOrder α] [Zero α] [Add α] [Inhabited σ] (env : RnnEnv ε ι σ α τ)
    (events : List ε) (num_steps : ℕ) (t : τ)
    (beam_size branch_factor steps_per_iteration : ℕ) :
    Except GenError (List ε) :=
  let event_sequences := List.replicate beam_size events
  let loglik := initialLogLik α beam_size
  let inputs := env.getInputsBatch event_sequences true
  let initial_state := List.replicate beam_size env.initStateRow
  match generateBranches bs env event_sequences loglik branch_factor
      (firstIterationNumSteps num_steps steps_per_iteration) inputs initial_state t with
  | .error e => .error e
  | .ok r =>
      match searchIterations bs env t beam_size branch_factor steps_per_iteration
          (numIterations num_steps steps_per_iteration) r.1 r.2.1 r.2.2 with
      | .error e => .error e
      | .ok r2 =>
          let p := pruneBranches r2.1 r2.2.1 r2.2.2 1
          match p.1 with
          | [] => .error .pyIndexError
          | e :: _ => .ok e

/-- The batch size forced by the constructor for generation:
`self._config.hparams.batch_size = 1` (line 56 of the source). -/
def generationBatchSize : ℕ := 1

/-- `_generate_events` (lines 308-343): validate that the primer is
non-empty (`if not primer_events`, checked first) and strictly shorter than
`num_steps`, then, under the guard `num_steps > len(primer_events)` (always
true after validation), delegate to `_beam_search` with
`num_steps - len(primer_events)` remaining steps. -/
def generateEvents (bs : ℕ) [LinearOrder α] [Zero α] [Add α] [Inhabited σ] (env : RnnEnv ε ι σ α τ)
    (num_steps : ℕ) (primer_events : List ε) (t : τ)
    (beam_size branch_factor steps_per_iteration : ℕ) :
    Except GenError (List ε) :=
  if primer_events.isEmpty then .error .emptyPrimerError
  else if primer_events.length ≥ num_steps then .error .primerTooLongError
  else if primer_events.length < num_steps then
    beamSearch bs env primer_events (num_steps - primer_events.length) t
      beam_size branch_factor steps_per_iteration
  else .ok primer_events

/-! ### A concrete environment used to instantiate the theorems

A deterministic collaborator over event type `ℕ`, state type `ℕ`, input
type `Unit` and rational scores: every step appends event `0`, moves to
state `0`, and reports chosen softmax value `1`. -/

/-- A concrete batched step function: appends event `0` to every sequence,
returns state `0` and chosen softmax value `1` for every sequence. -/
def toyStep : List (List ℕ) → List Unit → List ℕ → Unit →
    List (List ℕ) × List ℕ × List ℚ :=
  fun seqs _ _ _ =>
    (seqs.map (fun s => s ++ [0]), seqs.map (fun _ => 0), seqs.map (fun _ => 1))

/-- A concrete environment built from `toyStep`, with `log` the identity on
rational scores. -/
def toyEnv : RnnEnv ℕ Unit ℕ ℚ Unit :=
  { stepForBatch := toyStep
    log := id
    getInputsBatch := fun _ _ => []
    initStateRow := 0 }

/-! ### C2: the partial-batch padding branch -/

/-- C2: the claim that a final remainder chunk is padded with deep copies of
the last real candidate's sequence, input row and state row, with one step
invocation whose first `remainder` results are kept, fails on the code: the
padding branch of `_generate_step` builds the padded state matrix from
`np.tile(inputs[-1, :], (pad_size, 1))` — the last *input* row instead of
the last state row — and `inputs` is a Python list, so the tuple index
raises `TypeError` before the step function is ever invoked on the padded
chunk.  Evaluated here on a remainder chunk (one candidate, batch size 4):
the call errors instead of returning one real result. -/
theorem generate_step_padding_type_error :
    generateStep 4 toyEnv [[0]] [()] [0] () = .error .pyTypeError := rfl

/-! ### C3: step-count arithmetic of `_beam_search` -/

/-- Arithmetic of the priming pass and the iteration count of
`_beam_search`. -/
theorem step_count_split (num_steps spi : ℕ)
    (h1 : 1 ≤ num_steps) (h2 : 1 ≤ spi) :
    spi ∣ (num_steps - firstIterationNumSteps num_steps spi) ∧
    firstIterationNumSteps num_steps spi + numIterations num_steps spi * spi = num_steps := by
  have hdm := Nat.div_add_mod (num_steps - 1) spi
  have hfirst : firstIterationNumSteps num_steps spi = (num_steps - 1) % spi + 1 := rfl
  have hkey : num_steps - firstIterationNumSteps num_steps spi =
      spi * ((num_steps - 1) / spi) := by omega
  have hiter : numIterations num_steps spi = (num_steps - 1) / spi := by
    rw [numIterations, hkey, Nat.mul_div_cancel_left _ (by omega : 0 < spi)]
  have hcomm := Nat.mul_comm ((num_steps - 1) / spi) spi
  exact ⟨⟨_, hkey⟩, by rw [hiter]; omega⟩

/-- C3: for `num_steps ≥ 1` and `steps_per_iteration ≥ 1`, the number of
steps of the priming pass is `(num_steps - 1) % steps_per_iteration + 1`,
the division defining the iteration count is exact, and the priming steps
plus `steps_per_iteration` steps for each of the
`(num_steps - first_iteration_num_steps) / steps_per_iteration` iterations
add up to exactly `num_steps`. -/
theorem beam_search_step_arithmetic (num_steps spi : ℕ)
    (h1 : 1 ≤ num_steps) (h2 : 1 ≤ spi) :
    spi ∣ (num_steps - firstIterationNumSteps num_steps spi) ∧
    firstIterationNumSteps num_steps spi + numIterations num_steps spi * spi = num_steps :=
  step_count_split num_steps spi h1 h2

/-- Witness for C3 at `num_steps = 10`, `steps_per_iteration = 4`: the
priming pass takes 2 steps and 2 further iterations of 4 steps each make 10
steps in total. -/
theorem beam_search_step_arithmetic_witness :
    (1 ≤ 10 ∧ 1 ≤ 4) ∧
    (4 ∣ (10 - firstIterationNumSteps 10 4) ∧
     firstIterationNumSteps 10 4 + numIterations 10 4 * 4 = 10) :=
  ⟨by decide, beam_search_step_arithmetic 10 4 (by decide) (by decide)⟩

/-! ### C5: validation in `_generate_events` -/

/-- C5: generation fails with the empty-primer error when the primer has
length 0, and with the primer-too-long error when the primer length is at
least the target total length; the empty-primer check is performed first
(an empty primer yields the empty-primer error for every `num_steps`,
including `num_steps = 0` where both conditions hold).  Both equalities hold
for every environment and batch size, so the failure involves no model
interaction and produces no partial result. -/
theorem generate_events_validation [LinearOrder α] [Zero α] [Add α] [Inhabited σ]
    (bs : ℕ) (env : RnnEnv ε ι σ α τ) (num_steps : ℕ) (primer : List ε) (t : τ)
    (bsz bf spi : ℕ) :
    (primer = [] →
      generateEvents bs env num_steps primer t bsz bf spi = .error .emptyPrimerError) ∧
    (primer ≠ [] → num_steps ≤ primer.length →
      generateEvents bs env num_steps primer t bsz bf spi = .error .primerTooLongError) := by
  constructor
  · intro h
    subst h
    simp [generateEvents]
  · intro h1 h2
    rw [generateEvents, if_neg (by simpa using h1), if_pos (by simpa using h2)]

/-- Witness for C5: the empty primer yields the empty-primer error (for
target length 5), and the primer `[1, 2, 3]` with target length 3 yields the
primer-too-long error. -/
theorem generate_events_validation_witness :
    (generateEvents 1 toyEnv 5 ([] : List ℕ) () 1 1 1 = .error .emptyPrimerError) ∧
    (([1, 2, 3] : List ℕ) ≠ [] ∧ 3 ≤ ([1, 2, 3] : List ℕ).length ∧
      generateEvents 1 toyEnv 3 [1, 2, 3] () 1 1 1 = .error .primerTooLongError) :=
  ⟨(generate_events_validation 1 toyEnv 5 [] () 1 1 1).1 rfl,
   by decide,
   by decide,
   (generate_events_validation 1 toyEnv 3 [1, 2, 3] () 1 1 1).2 (by decide) (by decide)⟩

/-! ### C8: the empty population -/

/-- C8: on an empty candidate list, `_generate_step` returns empty outputs
(no extended sequences, an empty final-state matrix, an empty
chosen-softmax vector) and performs zero step-function invocations: the
number of full batches `0 / batch_size` is zero and the padding branch is
not taken since `offset < 0` is false.  The result is the same for every
environment, so no step function is consulted. -/
theorem generate_step_empty [Add α] (bs : ℕ) (env : RnnEnv ε ι σ α τ)
    (inputs : List ι) (states : List σ) (t : τ) (h : 1 ≤ bs) :
    generateStep bs env ([] : List (List ε)) inputs states t = .ok ([], [], []) ∧
    generateStepNumCalls 0 bs = 0 := by
  constructor
  · rw [generateStep, if_neg (by omega)]
    simp [stepChunks]
  · simp [generateStepNumCalls]

/-- Witness for C8 at batch size 3 in the concrete environment. -/
theorem generate_step_empty_witness :
    1 ≤ 3 ∧
    (generateStep 3 toyEnv ([] : List (List ℕ)) [] [] () = .ok ([], [], []) ∧
     generateStepNumCalls 0 3 = 0) :=
  ⟨by decide, generate_step_empty 3 toyEnv [] [] () (by decide)⟩

/-! ### C9: the constructor's batch-size override makes padding dead code -/

/-- C9: the constructor overrides the configured batch size to 1
(`self._config.hparams.batch_size = 1`), so every population size is an
exact multiple of the batch size, the padding guard
`batch_size * num_full_batches < len(event_sequences)` is false for every
population, `_generate_step` succeeds on every input (for every
environment), and the number of full-batch step invocations equals the
population size. -/
theorem batch_size_one_no_padding [Add α] :
    generationBatchSize = 1 ∧
    (∀ n : ℕ, n % generationBatchSize = 0) ∧
    (∀ n : ℕ, ¬(generationBatchSize * (n / generationBatchSize) < n)) ∧
    (∀ (env : RnnEnv ε ι σ α τ) (seqs : List (List ε)) (inputs : List ι)
        (states : List σ) (t : τ), ∃ r,
      generateStep generationBatchSize env seqs inputs states t = Except.ok r) ∧
    (∀ n : ℕ, generateStepNumCalls n generationBatchSize = n) := by
  refine ⟨rfl, fun n => by unfold generationBatchSize; omega,
    fun n => by unfold generationBatchSize; omega, ?_,
    fun n => by unfold generateStepNumCalls generationBatchSize; omega⟩
  intro env seqs inputs states t
  unfold generateStep generationBatchSize
  simp

/-! ### The stable top-k selection of `_prune_branches` -/

/-- In the ordering realised by `nlargest`, an earlier element's key is at
least a later element's key. -/
theorem le_of_keyOrd [LinearOrder α] {key : ℕ → α} {i j : ℕ} (h : keyOrd key i j) :
    key j ≤ key i := by
  rcases h with h | ⟨h, _⟩
  · exact le_of_lt h
  · exact le_of_eq h.symm

/-- Inserting an index is a permutation of pushing it on the front. -/
theorem insertTopIdx_perm [LinearOrder α] (key : ℕ → α) (i : ℕ) (xs : List ℕ) :
    List.Perm (insertTopIdx key i xs) (i :: xs) := by
  induction xs with
  | nil => exact List.Perm.refl _
  | cons j js ih =>
      unfold insertTopIdx
      by_cases h : key j ≤ key i
      · rw [if_pos h]
      · rw [if_neg h]
        exact (ih.cons j).trans (List.Perm.swap i j js)

/-- Inserting an index smaller than all present indices preserves
sortedness in the `keyOrd` ordering. -/
theorem insertTopIdx_pairwise [LinearOrder α] (key : ℕ → α) (i : ℕ) (xs : List ℕ)
    (hs : xs.Pairwise (keyOrd key)) (hlt : ∀ j ∈ xs, i < j) :
    (insertTopIdx key i xs).Pairwise (keyOrd key) := by
  induction xs with
  | nil => simp [insertTopIdx, keyOrd]
  | cons j js ih =>
      obtain ⟨hj, hjs⟩ := List.pairwise_cons.mp hs
      unfold insertTopIdx
      by_cases h : key j ≤ key i
      · rw [if_pos h]
        refine List.Pairwise.cons ?_ hs
        intro x hx
        rcases List.mem_cons.mp hx with rfl | hx'
        · rcases lt_or_eq_of_le h with hlt' | heq
          · exact Or.inl hlt'
          · exact Or.inr ⟨heq.symm, le_of_lt (hlt x (List.mem_cons_self x js))⟩
        · have h2 : key x ≤ key i := le_trans (le_of_keyOrd (hj x hx')) h
          rcases lt_or_eq_of_le h2 with hlt' | heq
          · exact Or.inl hlt'
          · exact Or.inr ⟨heq.symm, le_of_lt (hlt x (List.mem_cons_of_mem _ hx'))⟩
      · rw [if_neg h]
        refine List.Pairwise.cons ?_ (ih hjs (fun x hx => hlt x (List.mem_cons_of_mem _ hx)))
        intro x hx
        rcases List.mem_cons.mp ((insertTopIdx_perm key i js).mem_iff.mp hx) with rfl | hxx
        · exact Or.inl (lt_of_not_le h)
        · exact hj x hxx

/-- The stable descending sort is a permutation of its input. -/
theorem sortIdxDesc_perm [LinearOrder α] (key : ℕ → α) (l : List ℕ) :
    List.Perm (sortIdxDesc key l) l := by
  induction l with
  | nil => exact List.Perm.refl _
  | cons i is ih =>
      unfold sortIdxDesc
      exact (insertTopIdx_perm key i _).trans (ih.cons i)

/-- On a strictly increasing index list, the stable descending sort is
sorted in the `keyOrd` ordering. -/
theorem sortIdxDesc_pairwise [LinearOrder α] (key : ℕ → α) (l : List ℕ)
    (hl : l.Pairwise (· < ·)) : (sortIdxDesc key l).Pairwise (keyOrd key) := by
  induction l with
  | nil => simp [sortIdxDesc]
  | cons i is ih =>
      obtain ⟨hi, his⟩ := List.pairwise_cons.mp hl
      unfold sortIdxDesc
      exact insertTopIdx_pairwise key i _ (ih his)
        (fun j hj => hi j ((sortIdxDesc_perm key is).mem_iff.mp hj))

/-- `nlargest k m key` selects `min k m` indices. -/
theorem nlargest_length [LinearOrder α] (k m : ℕ) (key : ℕ → α) :
    (nlargest k m key).length = min k m := by
  unfold nlargest
  rw [List.length_take, (sortIdxDesc_perm key (List.range m)).length_eq, List.length_range]

/-- Selected indices are in range. -/
theorem nlargest_mem [LinearOrder α] {k m i : ℕ} {key : ℕ → α}
    (h : i ∈ nlargest k m key) : i < m := by
  unfold nlargest at h
  exact List.mem_range.mp
    ((sortIdxDesc_perm key (List.range m)).mem_iff.mp (List.mem_of_mem_take h))

/-- The selected indices are sorted in the `keyOrd` ordering: descending by
key, earlier original position first among equal keys. -/
theorem nlargest_pairwise [LinearOrder α] (k m : ℕ) (key : ℕ → α) :
    (nlargest k m key).Pairwise (keyOrd key) :=
  (sortIdxDesc_pairwise key (List.range m) (List.pairwise_lt_range m)).sublist
    (List.take_sublist k _)

/-- The selected indices are distinct. -/
theorem nlargest_nodup [LinearOrder α] (k m : ℕ) (key : ℕ → α) :
    (nlargest k m key).Nodup :=
  (((sortIdxDesc_perm key (List.range m)).nodup_iff).mpr (List.nodup_range m)).sublist
    (List.take_sublist k _)

/-- Every selected index's key dominates every unselected in-range index's
key. -/
theorem nlargest_le_of_not_mem [LinearOrder α] {k m : ℕ} (key : ℕ → α) {i j : ℕ}
    (hi : i ∈ nlargest k m key) (hj : j < m) (hj' : j ∉ nlargest k m key) :
    key j ≤ key i := by
  have hS := sortIdxDesc_pairwise key (List.range m) (List.pairwise_lt_range m)
  have hjS : j ∈ sortIdxDesc key (List.range m) :=
    (sortIdxDesc_perm key (List.range m)).mem_iff.mpr (List.mem_range.mpr hj)
  have hjdrop : j ∈ (sortIdxDesc key (List.range m)).drop k := by
    rcases List.mem_append.mp
        (by rw [List.take_append_drop]; exact hjS :
          j ∈ (sortIdxDesc key (List.range m)).take k ++
              (sortIdxDesc key (List.range m)).drop k) with h | h
    · exact absurd h hj'
    · exact h
  exact le_of_keyOrd (hS.rel_of_mem_take_of_mem_drop hi hjdrop)

/-- With `k = 1` and a non-empty range, `nlargest` selects a single index
whose key is a global maximum. -/
theorem nlargest_one [LinearOrder α] {m : ℕ} (key : ℕ → α) (hm : 1 ≤ m) :
    ∃ i₀, nlargest 1 m key = [i₀] ∧ i₀ < m ∧ ∀ j < m, key j ≤ key i₀ := by
  have hlen : (nlargest 1 m key).length = 1 := by rw [nlargest_length]; omega
  obtain ⟨i₀, hi₀⟩ : ∃ i₀, nlargest 1 m key = [i₀] := by
    match h : nlargest 1 m key with
    | [] => rw [h] at hlen; simp at hlen
    | [a] => exact ⟨a, rfl⟩
    | a :: b :: l => rw [h] at hlen; simp at hlen
  have hmem : i₀ ∈ nlargest 1 m key := by
    rw [hi₀]
    exact List.mem_singleton_self i₀
  refine ⟨i₀, hi₀, nlargest_mem hmem, fun j hj => ?_⟩
  by_cases hjmem : j ∈ nlargest 1 m key
  · rw [hi₀, List.mem_singleton] at hjmem
    subst hjmem
    exact le_refl _
  · exact nlargest_le_of_not_mem key hmem hj hjmem

/-- Among selected indices with equal keys, the earlier original position
comes first: the selection is a stable top-k. -/
theorem nlargest_stable [LinearOrder α] (k m : ℕ) (key : ℕ → α) :
    (nlargest k m key).Pairwise (fun i j => key i = key j → i < j) := by
  refine ((nlargest_pairwise k m key).and (nlargest_nodup k m key)).imp ?_
  rintro a b ⟨hord, hne⟩ heq
  rcases hord with h | ⟨_, hle⟩
  · exact absurd (heq ▸ h) (lt_irrefl _)
  · exact lt_of_le_of_ne hle hne

/-- The event-sequence component of `_prune_branches`. -/
theorem pruneBranches_events [LinearOrder α] [Zero α] [Inhabited σ]
    (es : List (List ε)) (fs : List σ) (ll : List α) (k : ℕ) :
    (pruneBranches es fs ll k).1 =
      (nlargest k es.length (fun i => ll.getD i 0)).map (fun i => es.getD i []) := rfl

/-- The state component of `_prune_branches`. -/
theorem pruneBranches_states [LinearOrder α] [Zero α] [Inhabited σ]
    (es : List (List ε)) (fs : List σ) (ll : List α) (k : ℕ) :
    (pruneBranches es fs ll k).2.1 =
      (nlargest k es.length (fun i => ll.getD i 0)).map (fun i => fs.getD i default) := rfl

/-- The log-likelihood component of `_prune_branches`. -/
theorem pruneBranches_loglik [LinearOrder α] [Zero α] [Inhabited σ]
    (es : List (List ε)) (fs : List σ) (ll : List α) (k : ℕ) :
    (pruneBranches es fs ll k).2.2 =
      (nlargest k es.length (fun i => ll.getD i 0)).map (fun i => ll.getD i 0) := rfl

/-- Every pruned event sequence is one of the input event sequences. -/
theorem pruneBranches_events_mem [LinearOrder α] [Zero α] [Inhabited σ]
    {es : List (List ε)} {fs : List σ} {ll : List α} {k : ℕ} {x : List ε}
    (hx : x ∈ (pruneBranches es fs ll k).1) : x ∈ es := by
  rw [pruneBranches_events] at hx
  obtain ⟨i, hi, rfl⟩ := List.mem_map.mp hx
  have him : i < es.length := nlargest_mem hi
  rw [List.getD_eq_getElem?_getD, List.getElem?_eq_getElem him]
  exact List.getElem_mem him

/-- In a list that is pairwise non-increasing, every element is bounded by
the head. -/
theorem le_headD_of_pairwise_ge [LinearOrder α] {l : List α}
    (h : l.Pairwise (fun a b => b ≤ a)) (d : α) : ∀ x ∈ l, x ≤ l.headD d := by
  match l with
  | [] => intro x hx; simp at hx
  | a :: rest =>
      intro x hx
      rcases List.mem_cons.mp hx with rfl | hx'
      · simp
      · simpa using (List.pairwise_cons.mp h).1 x hx'

/-! ### C4: the pruning contract -/

/-- C4: pruning a beam of `M` candidates to target size `k` keeps exactly
`min k M` candidates (the three parallel collections pruned in lockstep);
every kept index's log-likelihood is at least every discarded in-range
index's log-likelihood; among kept indices with equal log-likelihood the
original input order is preserved (stable top-k); and for `k = 1` on a
non-empty beam, the single kept candidate's log-likelihood is the global
maximum. -/
theorem prune_branches_stable_topk [LinearOrder α] [Zero α] [Inhabited σ]
    (es : List (List ε)) (fs : List σ) (ll : List α) (k : ℕ)
    (hll : ll.length = es.length) :
    ((pruneBranches es fs ll k).1.length = min k es.length ∧
     (pruneBranches es fs ll k).2.1.length = min k es.length ∧
     (pruneBranches es fs ll k).2.2.length = min k es.length) ∧
    (∀ i ∈ nlargest k es.length (fun i => ll.getD i 0), ∀ j < es.length,
       j ∉ nlargest k es.length (fun i => ll.getD i 0) → ll.getD j 0 ≤ ll.getD i 0) ∧
    (nlargest k es.length (fun i => ll.getD i 0)).Pairwise
      (fun i j => ll.getD i 0 = ll.getD j 0 → i < j) ∧
    (1 ≤ es.length → ∃ i₀ < es.length,
       (pruneBranches es fs ll 1).1 = [es.getD i₀ []] ∧
       (pruneBranches es fs ll 1).2.1 = [fs.getD i₀ default] ∧
       (pruneBranches es fs ll 1).2.2 = [ll.getD i₀ 0] ∧
       ∀ j < es.length, ll.getD j 0 ≤ ll.getD i₀ 0) := by
  refine ⟨?_, ?_, ?_, ?_⟩
  · rw [pruneBranches_events, pruneBranches_states, pruneBranches_loglik]
    simp [List.length_map, nlargest_length]
  · exact fun i hi j hj hj' => nlargest_le_of_not_mem _ hi hj hj'
  · exact nlargest_stable k es.length (fun i => ll.getD i 0)
  · intro hm
    obtain ⟨i₀, h1, h2, h3⟩ := nlargest_one (fun i => ll.getD i 0) hm
    refine ⟨i₀, h2, ?_, ?_, ?_, h3⟩
    · rw [pruneBranches_events, h1, List.map_singleton]
    · rw [pruneBranches_states, h1, List.map_singleton]
    · rw [pruneBranches_loglik, h1, List.map_singleton]

/-- Witness for C4 on the beam `[[10], [20], [30], [40]]` with
log-likelihoods `[1, 3, 3, 2]` pruned to `k = 2` (the tie between the two
`3`s exercises stability). -/
theorem prune_branches_stable_topk_witness :
    (([1, 3, 3, 2] : List ℚ).length = ([[10], [20], [30], [40]] : List (List ℕ)).length) ∧
    (((pruneBranches [[10], [20], [30], [40]] ([5, 6, 7, 8] : List ℕ)
         ([1, 3, 3, 2] : List ℚ) 2).1.length = min 2 ([[10], [20], [30], [40]] : List (List ℕ)).length ∧
      (pruneBranches [[10], [20], [30], [40]] ([5, 6, 7, 8] : List ℕ)
         ([1, 3, 3, 2] : List ℚ) 2).2.1.length = min 2 ([[10], [20], [30], [40]] : List (List ℕ)).length ∧
      (pruneBranches [[10], [20], [30], [40]] ([5, 6, 7, 8] : List ℕ)
         ([1, 3, 3, 2] : List ℚ) 2).2.2.length = min 2 ([[10], [20], [30], [40]] : List (List ℕ)).length) ∧
     (∀ i ∈ nlargest 2 ([[10], [20], [30], [40]] : List (List ℕ)).length
          (fun i => ([1, 3, 3, 2] : List ℚ).getD i 0),
        ∀ j < ([[10], [20], [30], [40]] : List (List ℕ)).length,
          j ∉ nlargest 2 ([[10], [20], [30], [40]] : List (List ℕ)).length
              (fun i => ([1, 3, 3, 2] : List ℚ).getD i 0) →
            ([1, 3, 3, 2] : List ℚ).getD j 0 ≤ ([1, 3, 3, 2] : List ℚ).getD i 0) ∧
     (nlargest 2 ([[10], [20], [30], [40]] : List (List ℕ)).length
        (fun i => ([1, 3, 3, 2] : List ℚ).getD i 0)).Pairwise
          (fun i j => ([1, 3, 3, 2] : List ℚ).getD i 0 = ([1, 3, 3, 2] : List ℚ).getD j 0 → i < j) ∧
     (1 ≤ ([[10], [20], [30], [40]] : List (List ℕ)).length → ∃ i₀ < ([[10], [20], [30], [40]] : List (List ℕ)).length,
        (pruneBranches [[10], [20], [30], [40]] ([5, 6, 7, 8] : List ℕ)
           ([1, 3, 3, 2] : List ℚ) 1).1 = [([[10], [20], [30], [40]] : List (List ℕ)).getD i₀ []] ∧
        (pruneBranches [[10], [20], [30], [40]] ([5, 6, 7, 8] : List ℕ)
           ([1, 3, 3, 2] : List ℚ) 1).2.1 = [([5, 6, 7, 8] : List ℕ).getD i₀ default] ∧
        (pruneBranches [[10], [20], [30], [40]] ([5, 6, 7, 8] : List ℕ)
           ([1, 3, 3, 2] : List ℚ) 1).2.2 = [([1, 3, 3, 2] : List ℚ).getD i₀ 0] ∧
        ∀ j < ([[10], [20], [30], [40]] : List (List ℕ)).length,
          ([1, 3, 3, 2] : List ℚ).getD j 0 ≤ ([1, 3, 3, 2] : List ℚ).getD i₀ 0)) :=
  ⟨by decide,
   prune_branches_stable_topk [[10], [20], [30], [40]] ([5, 6, 7, 8] : List ℕ)
     ([1, 3, 3, 2] : List ℚ) 2 (by decide)⟩

/-! ### C10: pruned output order -/

/-- C10: the pruned log-likelihoods come out sorted in non-increasing order
(rather than in input order), so the candidate at index 0 of the pruned
output has the maximal log-likelihood among the survivors; after the final
prune to `k = 1` on a non-empty beam, the single element at index 0 (which
`_beam_search` returns as `event_sequences[0]`) is an input candidate of
globally maximal log-likelihood. -/
theorem prune_branches_sorted_descending [LinearOrder α] [Zero α] [Inhabited σ]
    (es : List (List ε)) (fs : List σ) (ll : List α) (hll : ll.length = es.length) :
    (∀ k, ((pruneBranches es fs ll k).2.2).Pairwise (fun a b => b ≤ a)) ∧
    (∀ k, ∀ x ∈ (pruneBranches es fs ll k).2.2,
       x ≤ ((pruneBranches es fs ll k).2.2).headD 0) ∧
    (es ≠ [] → ∃ i₀ < es.length,
       (pruneBranches es fs ll 1).1 = [es.getD i₀ []] ∧
       ∀ j < es.length, ll.getD j 0 ≤ ll.getD i₀ 0) := by
  have hsorted : ∀ k, ((pruneBranches es fs ll k).2.2).Pairwise (fun a b => b ≤ a) := by
    intro k
    rw [pruneBranches_loglik]
    exact List.pairwise_map.mpr
      ((nlargest_pairwise k es.length (fun i => ll.getD i 0)).imp le_of_keyOrd)
  refine ⟨hsorted, fun k => le_headD_of_pairwise_ge (hsorted k) 0, fun hne => ?_⟩
  obtain ⟨i₀, h1, h2, h3⟩ :=
    nlargest_one (fun i => ll.getD i 0) (List.length_pos.mpr hne)
  exact ⟨i₀, h2, by rw [pruneBranches_events, h1, List.map_singleton], h3⟩

/-- Witness for C10 on the beam `[[1], [2], [3]]` with log-likelihoods
`[5, 7, 6]` (the maximum sits in the middle of the input). -/
theorem prune_branches_sorted_descending_witness :
    (([5, 7, 6] : List ℚ).length = ([[1], [2], [3]] : List (List ℕ)).length) ∧
    ((∀ k, ((pruneBranches [[1], [2], [3]] ([9, 9, 9] : List ℕ)
        ([5, 7, 6] : List ℚ) k).2.2).Pairwise (fun a b => b ≤ a)) ∧
     (∀ k, ∀ x ∈ (pruneBranches [[1], [2], [3]] ([9, 9, 9] : List ℕ)
        ([5, 7, 6] : List ℚ) k).2.2,
          x ≤ ((pruneBranches [[1], [2], [3]] ([9, 9, 9] : List ℕ)
            ([5, 7, 6] : List ℚ) k).2.2).headD 0) ∧
     (([[1], [2], [3]] : List (List ℕ)) ≠ [] → ∃ i₀ < ([[1], [2], [3]] : List (List ℕ)).length,
        (pruneBranches [[1], [2], [3]] ([9, 9, 9] : List ℕ)
          ([5, 7, 6] : List ℚ) 1).1 = [([[1], [2], [3]] : List (List ℕ)).getD i₀ []] ∧
        ∀ j < ([[1], [2], [3]] : List (List ℕ)).length,
          ([5, 7, 6] : List ℚ).getD j 0 ≤ ([5, 7, 6] : List ℚ).getD i₀ 0)) :=
  ⟨by decide,
   prune_branches_sorted_descending [[1], [2], [3]] ([9, 9, 9] : List ℕ)
     ([5, 7, 6] : List ℚ) (by decide)⟩

/-! ### The collaborator contract and the batching/branching specifications -/

/-- One step of the encoder/decoder's in-place extension: the new sequence
is the old sequence with exactly one appended event (spec §6: `extend`
appends one event chosen from the distribution). -/
def ExtendsOne (s s' : List ε) : Prop := ∃ e, s' = s ++ [e]

/-- Extension by exactly `k` appended events. -/
def ExtendsBy (k : ℕ) (s s' : List ε) : Prop := ∃ u : List ε, u.length = k ∧ s' = s ++ u

/-- The interface contract of the batched step function together with the
encoder/decoder (spec §6): on any batch it extends each sequence by exactly
one event, returns one final-state row and one chosen softmax value per
sequence, and every chosen softmax value satisfies `C` (instantiated as
membership in `(0, 1]` for the log-likelihood claims and trivially
elsewhere). -/
def StepFnOK (f : List (List ε) → List ι → List σ → τ → List (List ε) × List σ × List α)
    (C : α → Prop) : Prop :=
  ∀ seqs inputs states t,
    List.Forall₂ ExtendsOne seqs (f seqs inputs states t).1 ∧
    (f seqs inputs states t).2.1.length = seqs.length ∧
    (f seqs inputs states t).2.2.length = seqs.length ∧
    ∀ p ∈ (f seqs inputs states t).2.2, C p

/-- Concatenation respects pointwise relations. -/
theorem forall2_append {β γ : Type} {R : β → γ → Prop} :
    ∀ {a c : List β} {b d : List γ}, List.Forall₂ R a b → List.Forall₂ R c d →
      List.Forall₂ R (a ++ c) (b ++ d) := by
  intro a c b d h1 h2
  induction h1 with
  | nil => simpa using h2
  | cons h hrest ih => exact List.Forall₂.cons h ih

/-- Composition of pointwise relations through a middle list. -/
theorem forall2_comp {β γ δ : Type} {R : β → γ → Prop} {S : γ → δ → Prop} :
    ∀ {a : List β} {b : List γ} {c : List δ}, List.Forall₂ R a b → List.Forall₂ S b c →
      List.Forall₂ (fun x z => ∃ y, R x y ∧ S y z) a c := by
  intro a b c h1
  induction h1 generalizing c with
  | nil =>
      intro h2
      cases h2
      exact List.Forall₂.nil
  | cons h hrest ih =>
      intro h2
      cases h2 with
      | cons h' hrest' => exact List.Forall₂.cons ⟨_, h, h'⟩ (ih hrest')

/-- Every element on the right of a pointwise relation has a witness on the
left. -/
theorem forall2_mem_right {β γ : Type} {R : β → γ → Prop} :
    ∀ {a : List β} {b : List γ}, List.Forall₂ R a b → ∀ y ∈ b, ∃ x ∈ a, R x y := by
  intro a b h
  induction h with
  | nil => intro y hy; simp at hy
  | cons hR hrest ih =>
      intro y hy
      rcases List.mem_cons.mp hy with rfl | hy'
      · exact ⟨_, List.mem_cons_self _ _, hR⟩
      · obtain ⟨x, hx, hxy⟩ := ih y hy'
        exact ⟨x, List.mem_cons_of_mem _ hx, hxy⟩

/-- Reversal of a pointwise relation. -/
theorem forall2_flip {β γ : Type} {R : β → γ → Prop} :
    ∀ {a : List β} {b : List γ}, List.Forall₂ R a b →
      List.Forall₂ (fun y x => R x y) b a := by
  intro a b h
  induction h with
  | nil => exact List.Forall₂.nil
  | cons h hrest ih => exact List.Forall₂.cons h ih

/-- The elementwise log-likelihood update relates each entry to its
predecessor through one chosen softmax value. -/
theorem forall2_zipWith_add [Add α] {C : α → Prop} (log : α → α) :
    ∀ (ll ps : List α), ps.length = ll.length → (∀ p ∈ ps, C p) →
      List.Forall₂ (fun l l' => ∃ p, C p ∧ l' = l + log p) ll
        (accumulateLogLik log ll ps) := by
  intro ll
  induction ll with
  | nil => intro ps h hC; simp [accumulateLogLik]
  | cons l ls ih =>
      intro ps h hC
      match ps with
      | [] => simp at h
      | p :: ps' =>
          refine List.Forall₂.cons ⟨p, hC p (List.mem_cons_self _ _), rfl⟩ ?_
          exact ih ps' (by simpa using h) (fun q hq => hC q (List.mem_cons_of_mem _ hq))

/-- `pyRepeat` of zero copies. -/
theorem pyRepeat_zero (xs : List β) : pyRepeat xs 0 = [] := rfl

/-- `pyRepeat` of one more copy. -/
theorem pyRepeat_succ (xs : List β) (n : ℕ) : pyRepeat xs (n + 1) = xs ++ pyRepeat xs n := rfl

/-- Length of Python list repetition. -/
theorem pyRepeat_length (xs : List β) (n : ℕ) : (pyRepeat xs n).length = n * xs.length := by
  induction n with
  | zero => simp [pyRepeat_zero]
  | succ n ih =>
      rw [pyRepeat_succ, List.length_append, ih]
      ring

/-- Members of a repetition are members of the repeated list. -/
theorem pyRepeat_mem {xs : List β} {n : ℕ} {x : β} (h : x ∈ pyRepeat xs n) : x ∈ xs := by
  induction n with
  | zero => simp [pyRepeat_zero] at h
  | succ n ih =>
      rw [pyRepeat_succ, List.mem_append] at h
      exact h.elim id ih

/-- The full-batch loop satisfies the contract: on a population that is an
exact multiple of the batch size, every sequence is extended by one event
and the stitched state/softmax outputs have one row per candidate. -/
theorem stepChunks_spec (env : RnnEnv ε ι σ α τ) (t : τ) {C : α → Prop}
    (hf : StepFnOK env.stepForBatch C) (bs : ℕ) :
    ∀ (n : ℕ) (seqs : List (List ε)) (inputs : List ι) (states : List σ),
      seqs.length = n * bs →
      List.Forall₂ ExtendsOne seqs (stepChunks bs env t n seqs inputs states).1 ∧
      (stepChunks bs env t n seqs inputs states).2.1.length = seqs.length ∧
      (stepChunks bs env t n seqs inputs states).2.2.length = seqs.length ∧
      ∀ p ∈ (stepChunks bs env t n seqs inputs states).2.2, C p := by
  intro n
  induction n with
  | zero =>
      intro seqs inputs states hlen
      have hnil : seqs = [] := List.eq_nil_of_length_eq_zero (by simpa using hlen)
      subst hnil
      simp [stepChunks]
  | succ n ih =>
      intro seqs inputs states hlen
      obtain ⟨hext, hfs, hsm, hC⟩ := hf (seqs.take bs) (inputs.take bs) (states.take bs) t
      have hdlen : (seqs.drop bs).length = n * bs := by
        rw [List.length_drop, hlen, Nat.succ_mul]
        omega
      obtain ⟨ihext, ihfs, ihsm, ihC⟩ := ih (seqs.drop bs) (inputs.drop bs) (states.drop bs) hdlen
      simp only [stepChunks]
      refine ⟨?_, ?_, ?_, ?_⟩
      · have h := forall2_append hext ihext
        rwa [List.take_append_drop] at h
      · rw [List.length_append, hfs, ihfs, ← List.length_append, List.take_append_drop]
      · rw [List.length_append, hsm, ihsm, ← List.length_append, List.take_append_drop]
      · intro p hp
        rcases List.mem_append.mp hp with h | h
        · exact hC p h
        · exact ihC p h

/-- `_generate_step` satisfies the contract whenever the population size is
an exact multiple of a positive batch size (so the padding branch is not
reached). -/
theorem generateStep_spec (env : RnnEnv ε ι σ α τ) (t : τ) {C : α → Prop}
    (hf : StepFnOK env.stepForBatch C) (bs : ℕ) (hbs : bs ≠ 0)
    (seqs : List (List ε)) (inputs : List ι) (states : List σ)
    (hdvd : bs ∣ seqs.length) :
    ∃ r, generateStep bs env seqs inputs states t = .ok r ∧
      List.Forall₂ ExtendsOne seqs r.1 ∧
      r.2.1.length = seqs.length ∧ r.2.2.length = seqs.length ∧ ∀ p ∈ r.2.2, C p := by
  have hlen : seqs.length = (seqs.length / bs) * bs := by
    rw [Nat.div_mul_cancel hdvd]
  obtain ⟨h1, h2, h3, h4⟩ := stepChunks_spec env t hf bs (seqs.length / bs) seqs inputs states hlen
  refine ⟨_, ?_, h1, h2, h3, h4⟩
  rw [generateStep, if_neg hbs, if_neg (by rw [Nat.mul_div_cancel' hdvd]; omega)]

/-- The step loop of `_generate_branches` at the generation batch size:
`k` steps extend every sequence by exactly `k` events, keep one state row
per candidate, and add to every log-likelihood the sum of `log` of the `k`
chosen softmax values of that candidate. -/
theorem branchSteps_spec [AddMonoid α] (env : RnnEnv ε ι σ α τ) (t : τ) {C : α → Prop}
    (hf : StepFnOK env.stepForBatch C) :
    ∀ (k : ℕ) (seqs : List (List ε)) (inputs : List ι) (states : List σ) (ll : List α),
      ll.length = seqs.length → states.length = seqs.length →
      ∃ r, branchSteps 1 env t k seqs inputs states ll = .ok r ∧
        List.Forall₂ (ExtendsBy k) seqs r.1 ∧
        r.2.1.length = seqs.length ∧
        List.Forall₂ (fun l l' => ∃ ps : List α, ps.length = k ∧ (∀ p ∈ ps, C p) ∧
          l' = l + (ps.map env.log).sum) ll r.2.2 := by
  intro k
  induction k with
  | zero =>
      intro seqs inputs states ll hll hst
      refine ⟨(seqs, states, ll), rfl, ?_, hst, ?_⟩
      · exact List.forall₂_same.mpr (fun s _ => ⟨[], rfl, by simp⟩)
      · exact List.forall₂_same.mpr (fun l _ => ⟨[], rfl, by simp, by simp⟩)
  | succ k ih =>
      intro seqs inputs states ll hll hst
      obtain ⟨r₁, hr₁, hext₁, hfs₁, hsm₁, hC₁⟩ :=
        generateStep_spec env t hf 1 one_ne_zero seqs inputs states (one_dvd _)
      have hlen1 : seqs.length = r₁.1.length := hext₁.length_eq
      have hm : r₁.2.2.length = ll.length := by rw [hsm₁, hll]
      have hzip := forall2_zipWith_add (C := C) env.log ll r₁.2.2 hm hC₁
      obtain ⟨r, hr, hext, hfs, hsum⟩ := ih r₁.1 inputs r₁.2.1
        (accumulateLogLik env.log ll r₁.2.2)
        (by rw [← hzip.length_eq, hll, hlen1])
        (by rw [hfs₁, hlen1])
      refine ⟨r, ?_, ?_, ?_, ?_⟩
      · simp only [branchSteps, hr₁]
        exact hr
      · refine (forall2_comp hext₁ hext).imp ?_
        rintro s s'' ⟨s', ⟨e, rfl⟩, ⟨u, hu, rfl⟩⟩
        exact ⟨e :: u, by simp [hu], by simp⟩
      · rw [hfs, ← hlen1]
      · refine (forall2_comp hzip hsum).imp ?_
        rintro l l'' ⟨l', ⟨p, hp, rfl⟩, ⟨ps, hps, hpsC, rfl⟩⟩
        refine ⟨p :: ps, by simp [hps], ?_, ?_⟩
        · intro q hq
          rcases List.mem_cons.mp hq with rfl | hq'
          · exact hp
          · exact hpsC q hq'
        · simp [add_assoc]

/-- `_generate_branches` at the generation batch size: the population is
replicated `branch_factor` times, every copy is extended by exactly
`num_steps` events, the output collections all have `branch_factor` times
the input population size, and each output log-likelihood is its parent's
plus the sum of `log` of its chosen softmax values. -/
theorem generateBranches_spec [AddMonoid α] (env : RnnEnv ε ι σ α τ) (t : τ) {C : α → Prop}
    (hf : StepFnOK env.stepForBatch C) (es : List (List ε)) (ll : List α) (bf k : ℕ)
    (inputs : List ι) (states : List σ) (hll : ll.length = es.length)
    (hst : states.length = es.length) :
    ∃ r, generateBranches 1 env es ll bf k inputs states t = .ok r ∧
      List.Forall₂ (ExtendsBy k) (pyRepeat es bf) r.1 ∧
      r.1.length = bf * es.length ∧
      r.2.1.length = bf * es.length ∧
      List.Forall₂ (fun l l' => ∃ ps : List α, ps.length = k ∧ (∀ p ∈ ps, C p) ∧
        l' = l + (ps.map env.log).sum) (pyRepeat ll bf) r.2.2 := by
  have hlen : (pyRepeat ll bf).length = (pyRepeat es bf).length := by
    rw [pyRepeat_length, pyRepeat_length, hll]
  have hlenst : (pyRepeat states bf).length = (pyRepeat es bf).length := by
    rw [pyRepeat_length, pyRepeat_length, hst]
  obtain ⟨r, hr, hext, hfs, hsum⟩ := branchSteps_spec env t hf k (pyRepeat es bf)
    (pyRepeat inputs bf) (pyRepeat states bf) (pyRepeat ll bf) hlen hlenst
  refine ⟨r, ?_, hext, ?_, ?_, hsum⟩
  · unfold generateBranches
    exact hr
  · rw [← hext.length_eq, pyRepeat_length]
  · rw [hfs, pyRepeat_length]

/-- The first `p.length` elements of `p ++ u` are `p`. -/
theorem take_append_self (p u : List ε) : (p ++ u).take p.length = p := by
  induction p with
  | nil => simp
  | cons a p ih => simp [ih]

/-- The iteration loop of `_beam_search` at the generation batch size:
starting from a population of `beam_size * branch_factor` aligned
candidates all satisfying an extension-closed property, each of `n` rounds
prunes to `beam_size` and branches back to `beam_size * branch_factor`, the
loop succeeds, and each surviving sequence satisfies the property advanced
by `n * steps_per_iteration` appended events. -/
theorem searchIterations_spec [LinearOrder α] [Zero α] [AddMonoid α] [Inhabited σ]
    (env : RnnEnv ε ι σ α τ) (t : τ) {C : α → Prop} (hf : StepFnOK env.stepForBatch C)
    (bsz bf spi : ℕ) (hbsz : 1 ≤ bsz) (hbf : 1 ≤ bf)
    (P : ℕ → List ε → Prop)
    (hP : ∀ j k s s', P j s → ExtendsBy k s s' → P (j + k) s') :
    ∀ (n : ℕ) (es : List (List ε)) (fs : List σ) (ll : List α) (j : ℕ),
      es.length = bsz * bf → ll.length = es.length → fs.length = es.length →
      (∀ s ∈ es, P j s) →
      ∃ r, searchIterations 1 env t bsz bf spi n es fs ll = .ok r ∧
        r.1.length = bsz * bf ∧ r.2.1.length = bsz * bf ∧ r.2.2.length = bsz * bf ∧
        ∀ s ∈ r.1, P (j + n * spi) s := by
  intro n
  induction n with
  | zero =>
      intro es fs ll j hlen hll hfs hPes
      exact ⟨(es, fs, ll), rfl, hlen, by rw [hfs, hlen], by rw [hll, hlen],
        by simpa using hPes⟩
  | succ n ih =>
      intro es fs ll j hlen hll hfs hPes
      have hble : bsz ≤ bsz * bf := by
        calc bsz = bsz * 1 := by ring
          _ ≤ bsz * bf := Nat.mul_le_mul_left bsz hbf
      have hp1 : (pruneBranches es fs ll bsz).1.length = bsz := by
        rw [pruneBranches_events, List.length_map, nlargest_length, hlen]
        omega
      have hpll : (pruneBranches es fs ll bsz).2.2.length = bsz := by
        rw [pruneBranches_loglik, List.length_map, nlargest_length, hlen]
        omega
      have hpfs : (pruneBranches es fs ll bsz).2.1.length = bsz := by
        rw [pruneBranches_states, List.length_map, nlargest_length, hlen]
        omega
      obtain ⟨r₁, hr₁, hext₁, hr1len, hfs₁, hsum₁⟩ := generateBranches_spec env t hf
        (pruneBranches es fs ll bsz).1 (pruneBranches es fs ll bsz).2.2 bf spi
        (env.getInputsBatch (pruneBranches es fs ll bsz).1 false)
        (pruneBranches es fs ll bsz).2.1
        (by rw [hpll, hp1]) (by rw [hpfs, hp1])
      have hmem₁ : ∀ s ∈ r₁.1, P (j + spi) s := by
        intro s hs
        obtain ⟨s₀, hs₀, hext⟩ := forall2_mem_right hext₁ s hs
        exact hP j spi s₀ s (hPes s₀ (pruneBranches_events_mem (pyRepeat_mem hs₀))) hext
      obtain ⟨r, hr, h1, h2, h3, h4⟩ := ih r₁.1 r₁.2.1 r₁.2.2 (j + spi)
        (by rw [hr1len, hp1]; ring)
        (by rw [← hsum₁.length_eq, pyRepeat_length, hpll, hr1len, hp1])
        (by rw [hfs₁, hr1len])
        hmem₁
      refine ⟨r, ?_, h1, h2, h3, ?_⟩
      · simp only [searchIterations, hr₁]
        exact hr
      · intro s hs
        have harith : j + (n + 1) * spi = (j + spi) + n * spi := by ring
        rw [harith]
        exact h4 s hs

/-- `_beam_search` at the generation batch size: under the collaborator
contract and positive parameters, the search succeeds and returns a
sequence that extends the initial events by exactly `num_steps` appended
events. -/
theorem beamSearch_spec [LinearOrder α] [Zero α] [AddMonoid α] [Inhabited σ]
    (env : RnnEnv ε ι σ α τ) (t : τ) {C : α → Prop} (hf : StepFnOK env.stepForBatch C)
    (events : List ε) (num_steps bsz bf spi : ℕ)
    (hbsz : 1 ≤ bsz) (hbf : 1 ≤ bf) (hspi : 1 ≤ spi) (hns : 1 ≤ num_steps) :
    ∃ r, beamSearch 1 env events num_steps t bsz bf spi = .ok r ∧
      r.length = events.length + num_steps ∧ ∃ u, r = events ++ u := by
  obtain ⟨r₁, hr₁, hext₁, hr1len, hfs₁, hsum₁⟩ := generateBranches_spec env t hf
    (List.replicate bsz events) (initialLogLik α bsz) bf
    (firstIterationNumSteps num_steps spi)
    (env.getInputsBatch (List.replicate bsz events) true)
    (List.replicate bsz env.initStateRow)
    (by simp [initialLogLik]) (by simp)
  have hmem₁ : ∀ s ∈ r₁.1,
      s.length = events.length + firstIterationNumSteps num_steps spi ∧
      ∃ u, s = events ++ u := by
    intro s hs
    obtain ⟨s₀, hs₀, u, hu, rfl⟩ := forall2_mem_right hext₁ s hs
    have hs₀e : s₀ = events := List.eq_of_mem_replicate (pyRepeat_mem hs₀)
    subst hs₀e
    exact ⟨by simp [hu], u, rfl⟩
  obtain ⟨r₂, hr₂, h1, h2, h3, h4⟩ := searchIterations_spec env t hf bsz bf spi hbsz hbf
    (fun j s => s.length = events.length + j ∧ ∃ u, s = events ++ u)
    (by rintro j k s s' ⟨hlen, u, rfl⟩ ⟨v, hv, rfl⟩
        refine ⟨?_, u ++ v, by rw [List.append_assoc]⟩
        rw [List.length_append, hlen, hv]
        omega)
    (numIterations num_steps spi) r₁.1 r₁.2.1 r₁.2.2
    (firstIterationNumSteps num_steps spi)
    (by rw [hr1len, List.length_replicate]; ring)
    (by rw [← hsum₁.length_eq, pyRepeat_length, hr1len]; simp [initialLogLik])
    (by rw [hfs₁, hr1len])
    hmem₁
  have harith := (step_count_split num_steps spi hns hspi).2
  have hr2pos : 1 ≤ r₂.1.length := by
    have hmul : 1 * 1 ≤ bsz * bf := Nat.mul_le_mul hbsz hbf
    rw [h1]
    omega
  have hplen : (pruneBranches r₂.1 r₂.2.1 r₂.2.2 1).1.length = 1 := by
    rw [pruneBranches_events, List.length_map, nlargest_length]
    omega
  obtain ⟨x, hx⟩ : ∃ x, (pruneBranches r₂.1 r₂.2.1 r₂.2.2 1).1 = [x] := by
    match hm : (pruneBranches r₂.1 r₂.2.1 r₂.2.2 1).1 with
    | [] => rw [hm] at hplen; simp at hplen
    | [a] => exact ⟨a, rfl⟩
    | a :: b :: l => rw [hm] at hplen; simp at hplen
  have hxmem : x ∈ r₂.1 :=
    pruneBranches_events_mem (by rw [hx]; exact List.mem_singleton_self x)
  obtain ⟨hxlen, u, hxu⟩ := h4 x hxmem
  refine ⟨x, ?_, ?_, ⟨u, hxu⟩⟩
  · simp only [beamSearch, hr₁, hr₂, hx]
  · rw [hxlen, harith]

/-! ### C1: the generation entry point -/

/-- C1: for every request passing validation (`1 ≤ len(primer) < num_steps`)
and every collaborator satisfying the step-function contract, generation at
the constructor-forced batch size delegates to beam search with
`num_steps - len(primer)` remaining steps, succeeds, and returns a sequence
of length exactly `num_steps` whose first `len(primer)` elements are the
primer. -/
theorem generate_events_length_and_primer [LinearOrder α] [Zero α] [AddMonoid α] [Inhabited σ]
    (env : RnnEnv ε ι σ α τ) (t : τ) {C : α → Prop} (hf : StepFnOK env.stepForBatch C)
    (num_steps : ℕ) (primer : List ε) (bsz bf spi : ℕ)
    (hbsz : 1 ≤ bsz) (hbf : 1 ≤ bf) (hspi : 1 ≤ spi)
    (hp : primer ≠ []) (hshort : primer.length < num_steps) :
    generateEvents generationBatchSize env num_steps primer t bsz bf spi =
      beamSearch generationBatchSize env primer (num_steps - primer.length) t bsz bf spi ∧
    ∃ r, generateEvents generationBatchSize env num_steps primer t bsz bf spi = .ok r ∧
      r.length = num_steps ∧ r.take primer.length = primer := by
  have hdeleg : generateEvents generationBatchSize env num_steps primer t bsz bf spi =
      beamSearch generationBatchSize env primer (num_steps - primer.length) t bsz bf spi := by
    rw [generateEvents, if_neg (by simpa using hp), if_neg (by omega), if_pos hshort]
  obtain ⟨r, hr, hrlen, u, hru⟩ := beamSearch_spec env t hf primer
    (num_steps - primer.length) bsz bf spi hbsz hbf hspi (by omega)
  refine ⟨hdeleg, r, ?_, ?_, ?_⟩
  · rw [hdeleg]
    exact hr
  · rw [hrlen]
    omega
  · rw [hru]
    exact take_append_self primer u

/-- The concrete environment `toyEnv` satisfies the step-function contract
(with the trivial softmax-value condition). -/
theorem toyEnv_step_fn_ok : StepFnOK toyEnv.stepForBatch (fun _ => True) := by
  intro seqs inputs states t
  refine ⟨?_, ?_, ?_, fun p _ => trivial⟩
  · show List.Forall₂ ExtendsOne seqs (seqs.map (fun s => s ++ [0]))
    exact List.forall₂_map_right_iff.mpr (List.forall₂_same.mpr (fun s _ => ⟨0, rfl⟩))
  · show (seqs.map fun _ => (0 : ℕ)).length = seqs.length
    simp
  · show (seqs.map fun _ => (1 : ℚ)).length = seqs.length
    simp

/-- Witness for C1: primer `[5]`, target length 3, beam size, branch factor
and steps per iteration all 1, in the concrete environment. -/
theorem generate_events_length_and_primer_witness :
    (1 ≤ 1 ∧ ([5] : List ℕ) ≠ [] ∧ ([5] : List ℕ).length < 3 ∧
     StepFnOK toyEnv.stepForBatch (fun _ => True)) ∧
    (generateEvents generationBatchSize toyEnv 3 [5] () 1 1 1 =
       beamSearch generationBatchSize toyEnv [5] (3 - ([5] : List ℕ).length) () 1 1 1 ∧
     ∃ r, generateEvents generationBatchSize toyEnv 3 [5] () 1 1 1 = .ok r ∧
       r.length = 3 ∧ r.take ([5] : List ℕ).length = [5]) :=
  ⟨⟨le_refl 1, by decide, by decide, toyEnv_step_fn_ok⟩,
   generate_events_length_and_primer toyEnv () toyEnv_step_fn_ok 3 [5] 1 1 1
     (le_refl 1) (le_refl 1) (le_refl 1) (by decide) (by decide)⟩

/-! ### C6: population sizes alternate between prune and branch -/

/-- C6: under the step-function contract with `beam_size ≥ 1` and
`branch_factor ≥ 1`, (a) branching a beam of `M` aligned candidates yields
exactly `M * branch_factor` candidates with state rows and log-likelihoods
of the same count; (b) pruning a population of `beam_size * branch_factor`
to `beam_size` leaves exactly `beam_size` of each; and (c) every number of
prune/branch iterations starting from a population of
`beam_size * branch_factor` succeeds and returns a population of
`beam_size * branch_factor`, so the size alternates between `beam_size`
(post-prune) and `beam_size * branch_factor` (post-branch) throughout a
multi-iteration generation. -/
theorem population_alternation [LinearOrder α] [Zero α] [AddMonoid α] [Inhabited σ]
    (env : RnnEnv ε ι σ α τ) (t : τ) {C : α → Prop} (hf : StepFnOK env.stepForBatch C)
    (bsz bf spi : ℕ) (hbsz : 1 ≤ bsz) (hbf : 1 ≤ bf) :
    (∀ (es : List (List ε)) (ll : List α) (k : ℕ) (inputs : List ι) (states : List σ),
       ll.length = es.length → states.length = es.length →
       ∃ r, generateBranches 1 env es ll bf k inputs states t = .ok r ∧
         r.1.length = es.length * bf ∧ r.2.1.length = es.length * bf ∧
         r.2.2.length = es.length * bf) ∧
    (∀ (es : List (List ε)) (fs : List σ) (ll : List α), es.length = bsz * bf →
       (pruneBranches es fs ll bsz).1.length = bsz ∧
       (pruneBranches es fs ll bsz).2.1.length = bsz ∧
       (pruneBranches es fs ll bsz).2.2.length = bsz) ∧
    (∀ (n : ℕ) (es : List (List ε)) (fs : List σ) (ll : List α),
       es.length = bsz * bf → ll.length = es.length → fs.length = es.length →
       ∃ r, searchIterations 1 env t bsz bf spi n es fs ll = .ok r ∧
         r.1.length = bsz * bf ∧ r.2.1.length = bsz * bf ∧ r.2.2.length = bsz * bf) := by
  have hble : bsz ≤ bsz * bf := by
    calc bsz = bsz * 1 := by ring
      _ ≤ bsz * bf := Nat.mul_le_mul_left bsz hbf
  refine ⟨?_, ?_, ?_⟩
  · intro es ll k inputs states hll hst
    obtain ⟨r, hr, _, hn1, hn2, hsum⟩ :=
      generateBranches_spec env t hf es ll bf k inputs states hll hst
    refine ⟨r, hr, by rw [hn1]; ring, by rw [hn2]; ring, ?_⟩
    rw [← hsum.length_eq, pyRepeat_length, hll]
    ring
  · intro es fs ll hlen
    refine ⟨?_, ?_, ?_⟩
    · rw [pruneBranches_events, List.length_map, nlargest_length, hlen]
      omega
    · rw [pruneBranches_states, List.length_map, nlargest_length, hlen]
      omega
    · rw [pruneBranches_loglik, List.length_map, nlargest_length, hlen]
      omega
  · intro n es fs ll hlen hll hfs
    obtain ⟨r, hr, h1, h2, h3, _⟩ := searchIterations_spec env t hf bsz bf spi hbsz hbf
      (fun _ _ => True) (fun _ _ _ _ _ _ => trivial) n es fs ll 0 hlen hll hfs
      (fun _ _ => trivial)
    exact ⟨r, hr, h1, h2, h3⟩

/-- Witness for C6 at `beam_size = 2`, `branch_factor = 3`,
`steps_per_iteration = 1` in the concrete environment. -/
theorem population_alternation_witness :
    (1 ≤ 2 ∧ 1 ≤ 3 ∧ StepFnOK toyEnv.stepForBatch (fun _ => True)) ∧
    ((∀ (es : List (List ℕ)) (ll : List ℚ) (k : ℕ) (inputs : List Unit) (states : List ℕ),
        ll.length = es.length → states.length = es.length →
        ∃ r, generateBranches 1 toyEnv es ll 3 k inputs states () = .ok r ∧
          r.1.length = es.length * 3 ∧ r.2.1.length = es.length * 3 ∧
          r.2.2.length = es.length * 3) ∧
     (∀ (es : List (List ℕ)) (fs : List ℕ) (ll : List ℚ), es.length = 2 * 3 →
        (pruneBranches es fs ll 2).1.length = 2 ∧
        (pruneBranches es fs ll 2).2.1.length = 2 ∧
        (pruneBranches es fs ll 2).2.2.length = 2) ∧
     (∀ (n : ℕ) (es : List (List ℕ)) (fs : List ℕ) (ll : List ℚ),
        es.length = 2 * 3 → ll.length = es.length → fs.length = es.length →
        ∃ r, searchIterations 1 toyEnv () 2 3 1 n es fs ll = .ok r ∧
          r.1.length = 2 * 3 ∧ r.2.1.length = 2 * 3 ∧ r.2.2.length = 2 * 3)) :=
  ⟨⟨by decide, by decide, toyEnv_step_fn_ok⟩,
   population_alternation toyEnv () toyEnv_step_fn_ok 2 3 1 (by decide) (by decide)⟩

/-! ### C7: log-likelihood accumulation -/

/-- C7: with real-valued scores and `np.log` interpreted as the natural
logarithm, (i) each candidate's log-likelihood starts at 0 at beam
initialization (`np.zeros(beam_size)`); (ii) after a branching pass of
`num_steps` steps each output log-likelihood equals its parent's plus the
sum over those steps of `log` of the chosen softmax value, the chosen
values all lying in `(0, 1]` by the collaborator contract; and (iii) one
step of the accumulation update maps each entry to a value no larger than
before whenever the chosen softmax values lie in `(0, 1]`, so a fixed
candidate's cumulative log-likelihood is non-increasing from one step to
the next. -/
theorem loglik_accumulation (env : RnnEnv ε ι σ ℝ τ) (t : τ)
    (hlog : env.log = Real.log)
    (hf : StepFnOK env.stepForBatch (fun p => 0 < p ∧ p ≤ 1))
    (bsz : ℕ) (es : List (List ε)) (ll : List ℝ) (bf k : ℕ)
    (inputs : List ι) (states : List σ)
    (hll : ll.length = es.length) (hst : states.length = es.length) :
    (∀ i < bsz, (initialLogLik ℝ bsz).getD i 1 = 0) ∧
    (∃ r, generateBranches 1 env es ll bf k inputs states t = .ok r ∧
       List.Forall₂ (fun l l' => ∃ ps : List ℝ, ps.length = k ∧
         (∀ p ∈ ps, 0 < p ∧ p ≤ 1) ∧ l' = l + (ps.map Real.log).sum)
         (pyRepeat ll bf) r.2.2) ∧
    (∀ (ll₀ ps : List ℝ), ps.length = ll₀.length → (∀ p ∈ ps, 0 < p ∧ p ≤ 1) →
       List.Forall₂ (fun a b => a ≤ b) (accumulateLogLik Real.log ll₀ ps) ll₀) := by
  refine ⟨?_, ?_, ?_⟩
  · intro i hi
    rw [initialLogLik, List.getD_eq_getElem?_getD, List.getElem?_replicate, if_pos hi]
    rfl
  · obtain ⟨r, hr, _, _, _, hsum⟩ :=
      generateBranches_spec env t hf es ll bf k inputs states hll hst
    rw [hlog] at hsum
    exact ⟨r, hr, hsum⟩
  · intro ll₀ ps hlen hC
    have h := forall2_zipWith_add (C := fun p => (0 : ℝ) < p ∧ p ≤ 1) Real.log ll₀ ps hlen hC
    have h2 : List.Forall₂ (fun l l' => l' ≤ l) ll₀ (accumulateLogLik Real.log ll₀ ps) := by
      refine h.imp ?_
      rintro a b ⟨p, ⟨hp0, hp1⟩, rfl⟩
      have hlp : Real.log p ≤ 0 := Real.log_nonpos (le_of_lt hp0) hp1
      linarith
    exact forall2_flip h2

/-- A concrete batched step function over real scores: appends event `0`,
returns state `0` and chosen softmax value `1` for every sequence. -/
def toyStepR : List (List ℕ) → List Unit → List ℕ → Unit →
    List (List ℕ) × List ℕ × List ℝ :=
  fun seqs _ _ _ =>
    (seqs.map (fun s => s ++ [0]), seqs.map (fun _ => 0), seqs.map (fun _ => 1))

/-- `toyStepR` satisfies the contract with all chosen softmax values in
`(0, 1]`. -/
theorem toyStepR_ok : StepFnOK toyStepR (fun p : ℝ => 0 < p ∧ p ≤ 1) := by
  intro seqs inputs states t
  refine ⟨?_, ?_, ?_, ?_⟩
  · show List.Forall₂ ExtendsOne seqs (seqs.map (fun s => s ++ [0]))
    exact List.forall₂_map_right_iff.mpr (List.forall₂_same.mpr (fun s _ => ⟨0, rfl⟩))
  · show (seqs.map fun _ => (0 : ℕ)).length = seqs.length
    simp
  · show (seqs.map fun _ => (1 : ℝ)).length = seqs.length
    simp
  · show ∀ p ∈ seqs.map fun _ => (1 : ℝ), 0 < p ∧ p ≤ 1
    intro p hp
    obtain ⟨a, _, hpe⟩ := List.mem_map.mp hp
    rw [← hpe]
    exact ⟨one_pos, le_refl 1⟩

/-- Witness for C7: a singleton beam `[[7]]` with zero log-likelihood,
branch factor 2 and a 2-step pass, in a real-valued environment whose `log`
is the natural logarithm and whose chosen softmax values are all `1`. -/
theorem loglik_accumulation_witness :
    (({ stepForBatch := toyStepR, log := Real.log, getInputsBatch := fun _ _ => [],
        initStateRow := 0 } : RnnEnv ℕ Unit ℕ ℝ Unit).log = Real.log ∧
     StepFnOK toyStepR (fun p : ℝ => 0 < p ∧ p ≤ 1) ∧
     ([(0 : ℝ)]).length = ([[7]] : List (List ℕ)).length ∧
     ([(0 : ℕ)]).length = ([[7]] : List (List ℕ)).length) ∧
    ((∀ i < 3, (initialLogLik ℝ 3).getD i 1 = 0) ∧
     (∃ r, generateBranches 1
         ({ stepForBatch := toyStepR, log := Real.log, getInputsBatch := fun _ _ => [],
            initStateRow := 0 } : RnnEnv ℕ Unit ℕ ℝ Unit)
         [[7]] [(0 : ℝ)] 2 2 [] [(0 : ℕ)] () = .ok r ∧
       List.Forall₂ (fun l l' => ∃ ps : List ℝ, ps.length = 2 ∧
         (∀ p ∈ ps, 0 < p ∧ p ≤ 1) ∧ l' = l + (ps.map Real.log).sum)
         (pyRepeat [(0 : ℝ)] 2) r.2.2) ∧
     (∀ (ll₀ ps : List ℝ), ps.length = ll₀.length → (∀ p ∈ ps, 0 < p ∧ p ≤ 1) →
        List.Forall₂ (fun a b => a ≤ b) (accumulateLogLik Real.log ll₀ ps) ll₀)) :=
  ⟨⟨rfl, toyStepR_ok, rfl, rfl⟩,
   loglik_accumulation
     ({ stepForBatch := toyStepR, log := Real.log, getInputsBatch := fun _ _ => [],
        initStateRow := 0 } : RnnEnv ℕ Unit ℕ ℝ Unit) () rfl toyStepR_ok
     3 [[7]] [(0 : ℝ)] 2 2 [] [(0 : ℕ)] rfl rfl⟩

end EventsRnn
